import Mathlib

/-!
Verification of the Huffman coding core in `src/main.rs`.

The Rust program is shallowly embedded as follows.

* `Node` (a `freq : i32` plus a leaf character or two boxed children)
  becomes the inductive `HTree`; frequencies are modelled as `Nat`
  (they are occurrence counts; `i32` overflow is out of scope of the
  claims under verification).
* `HashMap<char, i32>` (the frequency map) becomes an association list
  `List (Char × Nat)` in first-occurrence order; Rust's hash map has no
  specified iteration order, and first-occurrence order is the concrete
  order this embedding fixes.
* `BinaryHeap<Node>` with the reversed `Ord` (a min-heap, ties resolved
  by unspecified internal order) becomes a list kept sorted by
  ascending `freq`; `insertNode` places a new node after all nodes of
  equal frequency, fixing one concrete tie-break for the unspecified
  heap order.  Popping is taking the head.
* `HashMap<char, String>` (the code table, strings over '0'/'1')
  becomes `List (Char × List Bool)` with `false` for '0' and `true`
  for '1'; `tinsert` mirrors `HashMap::insert` (overwrite semantics).
* `Option::unwrap` panics (empty heap in `build_huffman_tree`, missing
  table entry in `compress`) are modelled by `Option` results: `none`
  is the panic.
* `huffman_decode` returns `String::new()` in the source; it is
  embedded as the constant empty list.
* The two loops (`while min_heap.len() > 1` and the explicit stack of
  `build_code_table`) are written with a fuel parameter so that they
  are structurally recursive and compute inside the kernel; the fuel
  supplied is exactly enough (proved by the unfolding lemmas
  `buildLoop_cons_cons` and `build_code_table_eq_insertAll` below), so
  the fuel-out branches are unreachable.
-/

inductive HTree where
  | leaf (c : Char) (f : Nat)
  | node (f : Nat) (l : HTree) (r : HTree)
deriving DecidableEq

namespace HTree

def val : HTree → Nat
  | leaf _ f => f
  | node f _ _ => f

/-- The list of characters at the leaves, left to right. -/
def chars : HTree → List Char
  | leaf c _ => [c]
  | node _ l r => chars l ++ chars r

/-- Number of nodes (leaves and internal nodes). -/
def size : HTree → Nat
  | leaf _ _ => 1
  | node _ l r => size l + size r + 1

end HTree

open HTree

/-- `min_heap.push`: insert into the list sorted by ascending `val`,
after any node of equal `val` (one concrete resolution of the
unspecified `BinaryHeap` tie order). -/
def insertNode (t : HTree) : List HTree → List HTree
  | [] => [t]
  | h :: rest => if t.val < h.val then t :: h :: rest else h :: insertNode t rest

/-- The internal node created in the loop of `build_huffman_tree`:
`freq` is the sum, first popped node is the left child. -/
def mergeNodes (a b : HTree) : HTree := .node (a.val + b.val) a b

/-- The `while min_heap.len() > 1` loop of `build_huffman_tree`,
followed by the final `pop().unwrap()`; fuel-indexed.  `none` models
the panic of `unwrap` on an empty heap. -/
def buildLoopGo : Nat → List HTree → Option HTree
  | _, [] => none
  | _, [t] => some t
  | 0, _ :: _ :: _ => none
  | n + 1, a :: b :: rest => buildLoopGo n (insertNode (mergeNodes a b) rest)

/-- The heap-merging loop; the heap shrinks by one per iteration, so
`G.length` is enough fuel. -/
def buildLoop (G : List HTree) : Option HTree := buildLoopGo G.length G

/-- `build_freq_map`'s `entry(c).or_insert(0); *freq += 1` on one
character: bump the count if present, else append a fresh entry. -/
def bump : List (Char × Nat) → Char → List (Char × Nat)
  | [], c => [(c, 1)]
  | (k, v) :: rest, c => if k = c then (k, v + 1) :: rest else (k, v) :: bump rest c

/-- `build_freq_map`. -/
def build_freq_map (s : List Char) : List (Char × Nat) :=
  s.foldl bump []

/-- Association-list lookup (`HashMap::get`). -/
def lookupA {α : Type} : List (Char × α) → Char → Option α
  | [], _ => none
  | (k, v) :: rest, c => if k = c then some v else lookupA rest c

/-- The initial heap of `build_huffman_tree`: one leaf pushed per map
entry, in map order. -/
def heapOf (m : List (Char × Nat)) : List HTree :=
  m.foldl (fun h p => insertNode (.leaf p.1 p.2) h) []

/-- `build_huffman_tree`: push one leaf per map entry, then merge. -/
def build_huffman_tree (m : List (Char × Nat)) : Option HTree :=
  buildLoop (heapOf m)

/-- `HashMap::insert` on the association-list model: the new binding
shadows (removes) any previous binding of the same key. -/
def tinsert {α : Type} (c : Char) (v : α) (t : List (Char × α)) : List (Char × α) :=
  (c, v) :: t.filter (fun p => p.1 ≠ c)

/-- The explicit-stack loop of `build_code_table`, fuel-indexed.  The
source pushes `(left, code + "0")` then `(right, code + "1")`; popping
is LIFO, so the right branch is processed first.  The head of the list
is the top of the stack. -/
def codeGo : Nat → List (HTree × List Bool) → List (Char × List Bool) → List (Char × List Bool)
  | _, [], table => table
  | 0, _ :: _, table => table
  | n + 1, (t, code) :: stk, table =>
      match t with
      | .leaf c _ => codeGo n stk (tinsert c code table)
      | .node _ l r =>
          codeGo n ((r, code ++ [true]) :: (l, code ++ [false]) :: stk) table

/-- `build_code_table`: every node of the tree is pushed and popped
exactly once, so `root.size` is enough fuel. -/
def build_code_table (root : HTree) : List (Char × List Bool) :=
  codeGo root.size [(root, [])] []

/-- Recursive description of the table built by `build_code_table`:
all leaves of `t` are inserted, codes extended by `false` ('0') to the
left and `true` ('1') to the right, right subtree inserted first
(matching the LIFO processing order of the stack). -/
def insertAll : HTree → List Bool → List (Char × List Bool) → List (Char × List Bool)
  | .leaf c _, code, table => tinsert c code table
  | .node _ l r, code, table =>
      insertAll l (code ++ [false]) (insertAll r (code ++ [true]) table)

/-- `compress`: look up each character's code and concatenate, in
input order.  `none` models the `unwrap` panic on a missing entry. -/
def compress (s : List Char) (table : List (Char × List Bool)) : Option (List Bool) :=
  match s with
  | [] => some []
  | c :: cs =>
      match lookupA table c, compress cs table with
      | some code, some rest => some (code ++ rest)
      | _, _ => none

/-- `huffman_code`: the full pipeline. -/
def huffman_code (s : List Char) : Option (List (Char × List Bool) × List Bool) :=
  match build_huffman_tree (build_freq_map s) with
  | none => none
  | some t =>
      let table := build_code_table t
      match compress s table with
      | none => none
      | some bits => some (table, bits)

/-- `huffman_decode` in the source ignores its argument and returns
`String::new()`. -/
def huffman_decode (_hc : List (Char × List Bool) × List Bool) : List Char := []

/-- The path (as a bit list, `false` = left) from the root of `t` to a
leaf labelled `c`, preferring the left subtree; `none` if no leaf of
`t` is labelled `c`. -/
def pathOf (c : Char) : HTree → Option (List Bool)
  | .leaf c' _ => if c' = c then some [] else none
  | .node _ l r =>
      match pathOf c l with
      | some p => some (false :: p)
      | none => (pathOf c r).map (fun p => true :: p)

/-- `a` is a proper (strict) initial segment of `b`. -/
def properPre : List Bool → List Bool → Bool
  | [], [] => false
  | [], _ :: _ => true
  | _ :: _, [] => false
  | x :: xs, y :: ys => x == y && properPre xs ys

/-- The structural invariant of claim C6: every internal node's `freq`
is the sum of its children's, and every `freq` is at least 1. -/
def wf : HTree → Bool
  | .leaf _ f => decide (1 ≤ f)
  | .node f l r => decide (f = l.val + r.val) && wf l && wf r && decide (1 ≤ f)

/-- Number of future merges of the forest member `T` during the run of
the heap loop on `G` (fuel-indexed like `buildLoopGo`): if `T` is one
of the two minima popped, its merge count is one more than that of the
node it is merged into; otherwise it is unchanged. -/
def fmGo : Nat → HTree → List HTree → Nat
  | _, _, [] => 0
  | _, _, [_] => 0
  | 0, _, _ :: _ :: _ => 0
  | n + 1, T, a :: b :: rest =>
      if T = a ∨ T = b then
        1 + fmGo n (mergeNodes a b) (insertNode (mergeNodes a b) rest)
      else fmGo n T (insertNode (mergeNodes a b) rest)

/-- Future-merge count with exactly enough fuel. -/
def fm (T : HTree) (G : List HTree) : Nat := fmGo G.length T G

/-- The forest is sorted by ascending frequency (the heap model's
invariant). -/
def SortedF (G : List HTree) : Prop :=
  List.Pairwise (fun a b => a.val ≤ b.val) G

/-- All frequencies in the forest are positive. -/
def PosF (G : List HTree) : Prop := ∀ t ∈ G, 1 ≤ t.val

/-- Distinct forest members carry disjoint character sets. -/
def DisjF (G : List HTree) : Prop :=
  List.Pairwise (fun s t => ∀ c ∈ s.chars, c ∉ t.chars) G

/-- Monotonicity statement of the future-merge count, for forests of
length at most `n`: a strictly lighter forest member is merged at
least as many times as a heavier one. -/
def Mst (n : Nat) : Prop :=
  ∀ G : List HTree, G.length ≤ n → SortedF G → PosF G →
    ∀ A U : HTree, A ∈ G → U ∈ G → A.val < U.val → fm U G ≤ fm A G

/-- Auxiliary statement: if every forest member weighs at least `m2`,
`w` weighs `m1 + m2` (the weight of a just-merged node) and `U` weighs
between `m2` and `m1 + m2` but strictly more than `m1`, then `U` is
merged at most once more than `w`. -/
def Est (n : Nat) : Prop :=
  ∀ G : List HTree, G.length ≤ n → SortedF G → PosF G →
    ∀ (m1 m2 : Nat) (w U : HTree), m1 ≤ m2 → (∀ t ∈ G, m2 ≤ t.val) →
      w ∈ G → w.val = m1 + m2 →
      U ∈ G → m2 ≤ U.val → m1 < U.val → U.val ≤ m1 + m2 →
      fm U G ≤ 1 + fm w G

/-- Auxiliary statement: if every forest member weighs at least `v`,
then a member of weight `v` is merged at most twice more than a member
of weight `2 * v`. -/
def Fst (n : Nat) : Prop :=
  ∀ G : List HTree, G.length ≤ n → SortedF G → PosF G →
    ∀ (v : Nat) (U W : HTree), (∀ t ∈ G, v ≤ t.val) →
      U ∈ G → W ∈ G → U.val = v → W.val = 2 * v →
      fm U G ≤ 2 + fm W G

/-- Tie statement: two forest members of equal weight are merged
numbers of times that differ by at most one. -/
def Tst (n : Nat) : Prop :=
  ∀ G : List HTree, G.length ≤ n → SortedF G → PosF G →
    ∀ P Q : HTree, P ∈ G → Q ∈ G → P.val = Q.val → fm P G ≤ 1 + fm Q G

/-- The input of the source's `huffman_tree`/`code_table` tests:
5 × 'a', 9 × 'b', 12 × 'c', 13 × 'd', 16 × 'e', 45 × 'f'. -/
def build_input : List Char :=
  List.replicate 5 'a' ++ List.replicate 9 'b' ++ List.replicate 12 'c' ++
    List.replicate 13 'd' ++ List.replicate 16 'e' ++ List.replicate 45 'f'

/-- The tree the source's `huffman_tree` test asserts for
`build_input` (root `freq` 100). -/
def expectedTestTree : HTree :=
  .node 100 (.leaf 'f' 45)
    (.node 55 (.node 25 (.leaf 'c' 12) (.leaf 'd' 13))
      (.node 30 (.node 14 (.leaf 'a' 5) (.leaf 'b' 9)) (.leaf 'e' 16)))

/-- The code table the source's `code_table` test asserts for
`build_input` ('0' = `false`, '1' = `true`). -/
def expectedTestTable : List (Char × List Bool) :=
  [('f', [false]), ('c', [true, false, false]), ('d', [true, false, true]),
   ('a', [true, true, false, false]), ('b', [true, true, false, true]),
   ('e', [true, true, true])]

/-! ### Basic properties of the heap model -/

theorem length_insertNode (t : HTree) (l : List HTree) :
    (insertNode t l).length = l.length + 1 := by
  induction l with
  | nil => rfl
  | cons h rest ih =>
      unfold insertNode
      by_cases hc : t.val < h.val <;> simp [hc, ih]

theorem perm_insertNode (t : HTree) (l : List HTree) :
    (insertNode t l).Perm (t :: l) := by
  induction l with
  | nil => simp [insertNode]
  | cons h rest ih =>
      unfold insertNode
      by_cases hc : t.val < h.val
      · simp [hc]
      · simp only [hc, if_false]
        exact (ih.cons h).trans (List.Perm.swap t h rest)

theorem mem_insertNode {x t : HTree} {l : List HTree} :
    x ∈ insertNode t l ↔ x = t ∨ x ∈ l := by
  rw [(perm_insertNode t l).mem_iff]
  simp

theorem sorted_insertNode {t : HTree} {l : List HTree} (h : SortedF l) :
    SortedF (insertNode t l) := by
  induction l with
  | nil => simp [insertNode, SortedF]
  | cons a rest ih =>
      rcases h with _ | ⟨ha, hrest⟩
      unfold insertNode
      by_cases hc : t.val < a.val
      · simp only [hc, if_true]
        refine List.Pairwise.cons ?_ (List.Pairwise.cons ha hrest)
        intro b hb
        rcases List.mem_cons.mp hb with rfl | hb'
        · exact Nat.le_of_lt hc
        · exact Nat.le_trans (Nat.le_of_lt hc) (ha _ hb')
      · simp only [hc, if_false]
        refine List.Pairwise.cons ?_ (ih hrest)
        intro b hb
        rcases mem_insertNode.mp hb with rfl | hb
        · exact Nat.le_of_not_lt hc
        · exact ha _ hb

theorem buildLoop_nil : buildLoop [] = none := rfl

theorem buildLoop_single (t : HTree) : buildLoop [t] = some t := rfl

theorem buildLoop_cons_cons (a b : HTree) (rest : List HTree) :
    buildLoop (a :: b :: rest) = buildLoop (insertNode (mergeNodes a b) rest) := by
  show buildLoopGo (rest.length + 1 + 1) (a :: b :: rest) = _
  unfold buildLoop
  rw [length_insertNode]
  rfl

theorem fm_cons_cons (T a b : HTree) (rest : List HTree) :
    fm T (a :: b :: rest) =
      if T = a ∨ T = b then
        1 + fm (mergeNodes a b) (insertNode (mergeNodes a b) rest)
      else fm T (insertNode (mergeNodes a b) rest) := by
  show fmGo (rest.length + 1 + 1) T (a :: b :: rest) = _
  unfold fm
  rw [length_insertNode]
  rfl

theorem buildLoop_isSome :
    ∀ (n : Nat) (G : List HTree), G.length ≤ n → G ≠ [] → (buildLoop G).isSome = true := by
  intro n
  induction n with
  | zero =>
      intro G hlen hne
      cases G with
      | nil => exact absurd rfl hne
      | cons a rest => simp at hlen
  | succ n ih =>
      intro G hlen hne
      match G with
      | [t] => simp [buildLoop_single]
      | a :: b :: rest =>
          rw [buildLoop_cons_cons]
          apply ih
          · rw [length_insertNode]
            simpa using Nat.le_of_succ_le_succ hlen
          · intro hcon
            have := congrArg List.length hcon
            rw [length_insertNode] at this
            simp at this

/-! ### The initial heap -/

theorem perm_foldl_insert :
    ∀ (m : List (Char × Nat)) (l : List HTree),
      (m.foldl (fun h p => insertNode (.leaf p.1 p.2) h) l).Perm
        (l ++ m.map (fun p => HTree.leaf p.1 p.2)) := by
  intro m
  induction m with
  | nil => simp
  | cons p m' ih =>
      intro l
      have h1 := ih (insertNode (.leaf p.1 p.2) l)
      have h2 : (insertNode (.leaf p.1 p.2) l).Perm (.leaf p.1 p.2 :: l) :=
        perm_insertNode _ _
      simp only [List.foldl_cons, List.map_cons]
      exact (h1.trans (h2.append_right _)).trans List.perm_middle.symm

theorem perm_heapOf (m : List (Char × Nat)) :
    (heapOf m).Perm (m.map (fun p => HTree.leaf p.1 p.2)) := by
  simpa using perm_foldl_insert m []

theorem length_heapOf (m : List (Char × Nat)) : (heapOf m).length = m.length := by
  simpa using (perm_heapOf m).length_eq

theorem mem_heapOf {t : HTree} {m : List (Char × Nat)} :
    t ∈ heapOf m ↔ ∃ p ∈ m, t = HTree.leaf p.1 p.2 := by
  rw [(perm_heapOf m).mem_iff]
  simp [eq_comm]

theorem sorted_heapOf (m : List (Char × Nat)) : SortedF (heapOf m) := by
  unfold heapOf
  generalize hl : ([] : List HTree) = l
  have hs : SortedF l := by rw [← hl]; exact List.Pairwise.nil
  clear hl
  induction m generalizing l with
  | nil => exact hs
  | cons p m' ih => exact ih _ (sorted_insertNode hs)

/-! ### The frequency map -/

theorem lookup_bump (m : List (Char × Nat)) (c d : Char) :
    lookupA (bump m c) d =
      if c = d then some ((lookupA m d).getD 0 + 1) else lookupA m d := by
  induction m with
  | nil =>
      by_cases h : c = d <;> simp [bump, lookupA, h]
  | cons p rest ih =>
      obtain ⟨k, v⟩ := p
      by_cases hkc : k = c
      · subst hkc
        by_cases hkd : k = d <;> simp [bump, lookupA, hkd]
      · by_cases hkd : k = d
        · subst hkd
          have : ¬ c = k := fun h => hkc h.symm
          simp [bump, lookupA, hkc, this]
        · simp [bump, lookupA, hkc, hkd, ih]

theorem lookup_foldl_bump :
    ∀ (s : List Char) (m : List (Char × Nat)) (d : Char),
      lookupA (s.foldl bump m) d =
        if d ∈ s ∨ (lookupA m d).isSome then
          some ((lookupA m d).getD 0 + s.count d)
        else none := by
  intro s
  induction s with
  | nil =>
      intro m d
      cases h : lookupA m d <;> simp [h]
  | cons a s' ih =>
      intro m d
      rw [List.foldl_cons, ih (bump m a) d, lookup_bump]
      by_cases had : a = d
      · subst had
        cases h : lookupA m a <;>
          simp [h, List.count_cons, Nat.add_comm, Nat.add_assoc, Nat.add_left_comm]
      · have hda : ¬ d = a := fun h => had h.symm
        cases h : lookupA m d <;>
          simp [h, had, hda, List.count_cons]

theorem lookup_build_freq_map (s : List Char) (d : Char) :
    lookupA (build_freq_map s) d = if d ∈ s then some (s.count d) else none := by
  rw [build_freq_map, lookup_foldl_bump]
  simp [lookupA]

theorem lookupA_isSome_iff_mem_keys {α : Type} (m : List (Char × α)) (c : Char) :
    (lookupA m c).isSome = true ↔ c ∈ m.map Prod.fst := by
  induction m with
  | nil => simp [lookupA]
  | cons p rest ih =>
      obtain ⟨k, v⟩ := p
      rw [List.map_cons, List.mem_cons]
      by_cases h : k = c
      · simp [lookupA, h]
      · have h' : ¬ c = k := fun hck => h hck.symm
        simp [lookupA, h, h', ih]

theorem lookupA_eq_of_mem_nodup {α : Type} {m : List (Char × α)} {k : Char} {v : α}
    (hnd : (m.map Prod.fst).Nodup) (hm : (k, v) ∈ m) : lookupA m k = some v := by
  induction m with
  | nil => simp at hm
  | cons p rest ih =>
      obtain ⟨k', v'⟩ := p
      rw [List.map_cons, List.nodup_cons] at hnd
      obtain ⟨hk', hrest⟩ := hnd
      rcases List.mem_cons.mp hm with h | h
      · have h1 : k' = k := (congrArg Prod.fst h).symm
        have h2 : v' = v := (congrArg Prod.snd h).symm
        subst h1; subst h2
        simp [lookupA]
      · have hk : k' ≠ k := by
          intro hkk
          subst hkk
          exact hk' (List.mem_map.mpr ⟨(k', v), h, rfl⟩)
        simp [lookupA, hk, ih hrest h]

theorem mem_of_lookupA_eq {α : Type} {m : List (Char × α)} {k : Char} {v : α}
    (h : lookupA m k = some v) : (k, v) ∈ m := by
  induction m with
  | nil => simp [lookupA] at h
  | cons p rest ih =>
      obtain ⟨k', v'⟩ := p
      by_cases hk : k' = k
      · subst hk
        simp [lookupA] at h
        simp [h]
      · simp [lookupA, hk] at h
        exact List.mem_cons_of_mem _ (ih h)

theorem keys_bump (m : List (Char × Nat)) (c : Char) :
    (bump m c).map Prod.fst =
      if (lookupA m c).isSome then m.map Prod.fst else m.map Prod.fst ++ [c] := by
  induction m with
  | nil => simp [bump, lookupA]
  | cons p rest ih =>
      obtain ⟨k, v⟩ := p
      by_cases h : k = c
      · simp [bump, lookupA, h, ih]
      · simp [bump, lookupA, h, ih]
        split <;> simp

theorem nodup_keys_foldl_bump :
    ∀ (s : List Char) (m : List (Char × Nat)),
      (m.map Prod.fst).Nodup → ((s.foldl bump m).map Prod.fst).Nodup := by
  intro s
  induction s with
  | nil => intro m h; simpa using h
  | cons a s' ih =>
      intro m h
      rw [List.foldl_cons]
      apply ih
      rw [keys_bump]
      split
      · exact h
      · rename_i hn
        rw [List.nodup_append]
        refine ⟨h, List.nodup_singleton a, ?_⟩
        intro x hx hxa
        rcases List.mem_singleton.mp hxa with rfl
        exact hn ((lookupA_isSome_iff_mem_keys m x).mpr hx)

theorem nodup_keys_build_freq_map (s : List Char) :
    ((build_freq_map s).map Prod.fst).Nodup :=
  nodup_keys_foldl_bump s [] (by simp)

theorem sum_bump (m : List (Char × Nat)) (c : Char) :
    ((bump m c).map Prod.snd).sum = ((m.map Prod.snd)).sum + 1 := by
  induction m with
  | nil => simp [bump]
  | cons p rest ih =>
      obtain ⟨k, v⟩ := p
      by_cases h : k = c <;> simp [bump, h, ih] <;> omega

theorem sum_build_freq_map (s : List Char) :
    ((build_freq_map s).map Prod.snd).sum = s.length := by
  have key : ∀ (s' : List Char) (m : List (Char × Nat)),
      ((s'.foldl bump m).map Prod.snd).sum = (m.map Prod.snd).sum + s'.length := by
    intro s'
    induction s' with
    | nil => simp
    | cons a t ih =>
        intro m
        rw [List.foldl_cons, ih, sum_bump, List.length_cons]
        omega
  simpa using key s []

theorem mem_build_freq_map_iff {s : List Char} {c : Char} :
    c ∈ s ↔ (lookupA (build_freq_map s) c).isSome = true := by
  rw [lookup_build_freq_map]
  by_cases h : c ∈ s <;> simp [h]

theorem pos_val_build_freq_map {s : List Char} {p : Char × Nat}
    (hp : p ∈ build_freq_map s) : 1 ≤ p.2 := by
  obtain ⟨k, v⟩ := p
  have hl : lookupA (build_freq_map s) k = some v :=
    lookupA_eq_of_mem_nodup (nodup_keys_build_freq_map s) hp
  rw [lookup_build_freq_map] at hl
  split at hl
  · rename_i hmem
    have : v = s.count k := by injection hl with h; exact h.symm
    subst this
    simpa [Nat.succ_le_iff, List.count_pos_iff] using hmem
  · exact absurd hl (by simp)

/-! ### The code table -/

theorem size_pos (t : HTree) : 1 ≤ t.size := by
  cases t <;> simp [HTree.size]

theorem codeGo_insertAll :
    ∀ (t : HTree) (n : Nat) (stk : List (HTree × List Bool))
      (table : List (Char × List Bool)) (code : List Bool),
      (stk.map (fun p => p.1.size)).sum + t.size ≤ n →
      codeGo n ((t, code) :: stk) table =
        codeGo (n - t.size) stk (insertAll t code table) := by
  intro t
  induction t with
  | leaf c f =>
      intro n stk table code hn
      match n, hn with
      | m + 1, _ => rfl
  | node f l r ihl ihr =>
      intro n stk table code hn
      simp only [HTree.size] at hn
      match n, hn with
      | m + 1, hn =>
          show codeGo m ((r, code ++ [true]) :: (l, code ++ [false]) :: stk) table = _
          rw [ihr m ((l, code ++ [false]) :: stk) table (code ++ [true])
                (by simp only [List.map_cons, List.sum_cons]; omega),
              ihl (m - r.size) stk (insertAll r (code ++ [true]) table) (code ++ [false])
                (by omega)]
          have hsz : m + 1 - (l.size + r.size + 1) = m - r.size - l.size := by omega
          rw [show (HTree.node f l r).size = l.size + r.size + 1 from rfl, hsz]
          rfl

theorem build_code_table_eq_insertAll (root : HTree) :
    build_code_table root = insertAll root [] [] := by
  unfold build_code_table
  rw [codeGo_insertAll root root.size [] [] [] (by simp), Nat.sub_self]
  simp [codeGo]

theorem lookupA_filter_ne {α : Type} {c d : Char} (h : ¬ c = d) :
    ∀ table : List (Char × α),
      lookupA (table.filter (fun p => p.1 ≠ c)) d = lookupA table d := by
  have h' : ¬ d = c := fun hdc => h hdc.symm
  intro table
  induction table with
  | nil => rfl
  | cons p rest ih =>
      obtain ⟨k, w⟩ := p
      simp only [ne_eq, decide_not] at ih
      by_cases hk : k = c
      · subst hk
        simp [List.filter_cons, lookupA, h, h', ih]
      · by_cases hkd : k = d
        · subst hkd
          simp [List.filter_cons, lookupA, hk, h, h', ih]
        · simp [List.filter_cons, lookupA, hk, hkd, h, h', ih]

theorem lookupA_tinsert {α : Type} (c d : Char) (v : α) (table : List (Char × α)) :
    lookupA (tinsert c v table) d = if c = d then some v else lookupA table d := by
  by_cases h : c = d
  · simp [tinsert, lookupA, h]
  · simp only [tinsert, lookupA, h, if_false]
    exact lookupA_filter_ne h table

theorem lookupA_insertAll (t : HTree) :
    ∀ (code : List Bool) (table : List (Char × List Bool)) (d : Char),
      lookupA (insertAll t code table) d =
        match pathOf d t with
        | some p => some (code ++ p)
        | none => lookupA table d := by
  induction t with
  | leaf c f =>
      intro code table d
      by_cases h : c = d <;> simp [insertAll, pathOf, lookupA_tinsert, h]
  | node f l r ihl ihr =>
      intro code table d
      simp only [insertAll, pathOf]
      rw [ihl, ihr]
      cases hpl : pathOf d l with
      | some p => simp
      | none =>
          cases hpr : pathOf d r with
          | some p => simp
          | none => simp

theorem lookup_build_code_table (root : HTree) (d : Char) :
    lookupA (build_code_table root) d = pathOf d root := by
  rw [build_code_table_eq_insertAll, lookupA_insertAll]
  cases h : pathOf d root <;> simp [lookupA]

/-! ### Paths in the tree -/

theorem pathOf_isSome_iff (t : HTree) (c : Char) :
    (pathOf c t).isSome = true ↔ c ∈ t.chars := by
  induction t with
  | leaf c' f =>
      by_cases h : c' = c
      · simp [pathOf, HTree.chars, h]
      · have h' : ¬ c = c' := fun e => h e.symm
        simp [pathOf, HTree.chars, h, h']
  | node f l r ihl ihr =>
      simp only [pathOf, HTree.chars, List.mem_append]
      cases hl : pathOf c l with
      | some p => simp [← ihl, hl]
      | none =>
          cases hr : pathOf c r with
          | some p => simp [← ihl, ← ihr, hl, hr]
          | none => simp [← ihl, ← ihr, hl, hr]

theorem properPre_self : ∀ p : List Bool, properPre p p = false := by
  intro p
  induction p with
  | nil => rfl
  | cons x xs ih => simp [properPre, ih]

theorem pathOf_not_properPre :
    ∀ (t : HTree) (c1 c2 : Char) (p1 p2 : List Bool),
      pathOf c1 t = some p1 → pathOf c2 t = some p2 → properPre p1 p2 = false := by
  intro t
  induction t with
  | leaf c f =>
      intro c1 c2 p1 p2 h1 h2
      simp only [pathOf] at h1 h2
      by_cases e1 : c = c1
      · by_cases e2 : c = c2
        · rw [if_pos e1] at h1
          rw [if_pos e2] at h2
          obtain rfl : [] = p1 := by injection h1
          obtain rfl : [] = p2 := by injection h2
          rfl
        · rw [if_neg e2] at h2
          exact absurd h2 (by simp)
      · rw [if_neg e1] at h1
        exact absurd h1 (by simp)
  | node f l r ihl ihr =>
      intro c1 c2 p1 p2 h1 h2
      simp only [pathOf] at h1 h2
      cases hl1 : pathOf c1 l with
      | some q1 =>
          rw [hl1] at h1
          cases hl2 : pathOf c2 l with
          | some q2 =>
              rw [hl2] at h2
              obtain rfl : false :: q1 = p1 := by injection h1
              obtain rfl : false :: q2 = p2 := by injection h2
              simp [properPre, ihl _ _ _ _ hl1 hl2]
          | none =>
              rw [hl2] at h2
              cases hr2 : pathOf c2 r with
              | some q2 =>
                  rw [hr2] at h2
                  obtain rfl : false :: q1 = p1 := by injection h1
                  obtain rfl : true :: q2 = p2 := by
                    simp only [Option.map_some] at h2; injection h2
                  simp [properPre]
              | none => rw [hr2] at h2; simp at h2
      | none =>
          rw [hl1] at h1
          cases hr1 : pathOf c1 r with
          | some q1 =>
              rw [hr1] at h1
              obtain rfl : true :: q1 = p1 := by
                simp only [Option.map_some] at h1; injection h1
              cases hl2 : pathOf c2 l with
              | some q2 =>
                  rw [hl2] at h2
                  obtain rfl : false :: q2 = p2 := by injection h2
                  simp [properPre]
              | none =>
                  rw [hl2] at h2
                  cases hr2 : pathOf c2 r with
                  | some q2 =>
                      rw [hr2] at h2
                      obtain rfl : true :: q2 = p2 := by
                        simp only [Option.map_some] at h2; injection h2
                      simp [properPre, ihr _ _ _ _ hr1 hr2]
                  | none => rw [hr2] at h2; simp at h2
          | none => rw [hr1] at h1; simp at h1

/-! ### Leaf characters through the heap loop -/

theorem chars_buildLoop :
    ∀ (n : Nat) (G : List HTree) (R : HTree), G.length ≤ n → buildLoop G = some R →
      ∀ c, c ∈ R.chars ↔ ∃ t ∈ G, c ∈ t.chars := by
  intro n
  induction n with
  | zero =>
      intro G R hlen hR
      cases G with
      | nil => simp [buildLoop_nil] at hR
      | cons a rest => simp at hlen
  | succ n ih =>
      intro G R hlen hR c
      match G with
      | [t] =>
          rw [buildLoop_single] at hR
          obtain rfl : t = R := by injection hR
          simp
      | a :: b :: rest =>
          rw [buildLoop_cons_cons] at hR
          have hlen' : (insertNode (mergeNodes a b) rest).length ≤ n := by
            rw [length_insertNode]
            simpa using Nat.le_of_succ_le_succ hlen
          rw [ih _ R hlen' hR c]
          constructor
          · rintro ⟨t, ht, hc⟩
            rcases mem_insertNode.mp ht with rfl | ht'
            · rcases List.mem_append.mp hc with h | h
              · exact ⟨a, by simp, h⟩
              · exact ⟨b, by simp, h⟩
            · exact ⟨t, by simp [ht'], hc⟩
          · rintro ⟨t, ht, hc⟩
            rcases List.mem_cons.mp ht with rfl | ht'
            · exact ⟨mergeNodes t b, mem_insertNode.mpr (Or.inl rfl), by
                simp [mergeNodes, HTree.chars, hc]⟩
            rcases List.mem_cons.mp ht' with rfl | ht''
            · exact ⟨mergeNodes a t, mem_insertNode.mpr (Or.inl rfl), by
                simp [mergeNodes, HTree.chars, hc]⟩
            · exact ⟨t, mem_insertNode.mpr (Or.inr ht''), hc⟩

/-! ### The structural invariant (claim C6) -/

theorem wf_val_pos {t : HTree} (h : wf t = true) : 1 ≤ t.val := by
  cases t <;> simp [wf, HTree.val] at h ⊢ <;> omega

theorem wf_buildLoop :
    ∀ (n : Nat) (G : List HTree) (R : HTree), G.length ≤ n →
      (∀ t ∈ G, wf t = true) → buildLoop G = some R → wf R = true := by
  intro n
  induction n with
  | zero =>
      intro G R hlen hwf hR
      cases G with
      | nil => simp [buildLoop_nil] at hR
      | cons a rest => simp at hlen
  | succ n ih =>
      intro G R hlen hwf hR
      match G with
      | [t] =>
          rw [buildLoop_single] at hR
          obtain rfl : t = R := by injection hR
          exact hwf t (by simp)
      | a :: b :: rest =>
          rw [buildLoop_cons_cons] at hR
          refine ih _ R ?_ ?_ hR
          · rw [length_insertNode]
            simpa using Nat.le_of_succ_le_succ hlen
          · intro t ht
            rcases mem_insertNode.mp ht with rfl | ht'
            · have hwa : wf a = true := hwf a (by simp)
              have hwb : wf b = true := hwf b (by simp)
              have h1 : 1 ≤ a.val := wf_val_pos hwa
              have h2 : 1 ≤ a.val + b.val := by omega
              simp [mergeNodes, wf, hwa, hwb, h2]
            · exact hwf t (by simp [ht'])

/-! ### The encoder -/

theorem compress_none_iff :
    ∀ (s : List Char) (tbl : List (Char × List Bool)),
      compress s tbl = none ↔ ∃ c ∈ s, lookupA tbl c = none := by
  intro s
  induction s with
  | nil => intro tbl; simp [compress]
  | cons c cs ih =>
      intro tbl
      cases hl : lookupA tbl c with
      | none =>
          simp only [compress, hl]
          exact ⟨fun _ => ⟨c, by simp, hl⟩, fun _ => trivial⟩
      | some code =>
          cases hc : compress cs tbl with
          | none =>
              simp only [compress, hl, hc]
              refine ⟨fun _ => ?_, fun _ => trivial⟩
              obtain ⟨c', hc', hl'⟩ := (ih tbl).mp hc
              exact ⟨c', by simp [hc'], hl'⟩
          | some rest =>
              simp only [compress, hl, hc]
              constructor
              · intro h; exact absurd h (by simp)
              · rintro ⟨c', hc', hl'⟩
                rcases List.mem_cons.mp hc' with rfl | hcs
                · rw [hl] at hl'; exact absurd hl' (by simp)
                · have : compress cs tbl = none := (ih tbl).mpr ⟨c', hcs, hl'⟩
                  rw [hc] at this
                  exact absurd this (by simp)

theorem compress_some :
    ∀ (s : List Char) (tbl : List (Char × List Bool)) (bits : List Bool),
      compress s tbl = some bits →
      bits = (s.map (fun c => (lookupA tbl c).getD [])).flatten := by
  intro s
  induction s with
  | nil =>
      intro tbl bits h
      simp [compress] at h
      simp [← h]
  | cons c cs ih =>
      intro tbl bits h
      cases hl : lookupA tbl c with
      | none => rw [compress, hl] at h; exact absurd h (by simp)
      | some code =>
          cases hc : compress cs tbl with
          | none => rw [compress, hl, hc] at h; exact absurd h (by simp)
          | some rest =>
              rw [compress, hl, hc] at h
              obtain rfl : code ++ rest = bits := by injection h
              rw [List.map_cons, List.flatten_cons, hl, ih tbl rest hc]
              rfl

/-! ### Single-symbol inputs -/

theorem foldl_bump_replicate :
    ∀ (n : Nat) (c : Char) (v : Nat),
      List.foldl bump [(c, v)] (List.replicate n c) = [(c, v + n)] := by
  intro n
  induction n with
  | zero => intro c v; simp
  | succ m ih =>
      intro c v
      rw [List.replicate_succ, List.foldl_cons]
      have hb : bump [(c, v)] c = [(c, v + 1)] := by simp [bump]
      rw [hb, ih c (v + 1)]
      have : v + 1 + m = v + (m + 1) := by omega
      rw [this]

theorem build_freq_map_replicate (c : Char) (n : Nat) (h : 0 < n) :
    build_freq_map (List.replicate n c) = [(c, n)] := by
  match n, h with
  | m + 1, _ =>
      rw [build_freq_map, List.replicate_succ, List.foldl_cons]
      have hb : bump [] c = [(c, 1)] := rfl
      rw [hb, foldl_bump_replicate m c 1]
      have : 1 + m = m + 1 := by omega
      rw [this]

theorem build_huffman_tree_single (c : Char) (n : Nat) :
    build_huffman_tree [(c, n)] = some (.leaf c n) := rfl

theorem build_code_table_leaf (c : Char) (n : Nat) :
    build_code_table (.leaf c n) = [(c, [])] := rfl

theorem compress_single_char :
    ∀ (s : List Char) (c : Char), (∀ x ∈ s, x = c) →
      compress s [(c, [])] = some [] := by
  intro s
  induction s with
  | nil => intro c _; rfl
  | cons x cs ih =>
      intro c hall
      have hx : x = c := hall x (by simp)
      subst hx
      have : compress cs [(x, [])] = some [] :=
        ih x (fun y hy => hall y (by simp [hy]))
      rw [compress, this]
      simp [lookupA]

theorem singleSymbolPipeline (c : Char) (n : Nat) (h : 0 < n) :
    huffman_code (List.replicate n c) = some ([(c, [])], []) := by
  have h1 := build_freq_map_replicate c n h
  have h2 := build_huffman_tree_single c n
  have h3 := build_code_table_leaf c n
  have h4 : compress (List.replicate n c) [(c, [])] = some [] :=
    compress_single_char _ c (fun x hx => List.eq_of_mem_replicate hx)
  rw [huffman_code, h1, h2]
  simp only [h3, h4]

/-- If the frequency map of `s` is the single entry `(c, n)`, every
character of `s` is `c`. -/
theorem all_chars_eq_of_freq_single {s : List Char} {c : Char} {n : Nat}
    (h : build_freq_map s = [(c, n)]) : ∀ x ∈ s, x = c := by
  intro x hx
  have hsome : (lookupA (build_freq_map s) x).isSome = true :=
    mem_build_freq_map_iff.mp hx
  rw [h] at hsome
  by_cases hxc : c = x
  · exact hxc.symm
  · simp [lookupA, hxc] at hsome

/-! ## Claim theorems -/

/-- C1: the round-trip law `huffman_decode (huffman_code text) = text`
FAILS on the code: `huffman_decode` is a stub that returns the empty
string for every argument, so on the repository's own test input
`"this should work"` (a non-empty text over a bounded alphabet, on
which the encoding pipeline succeeds) decoding the encoding does not
return the original text. -/
theorem decode_stub_roundtrip_fails :
    (huffman_code (String.toList "this should work")).map huffman_decode = some [] ∧
    String.toList "this should work" ≠ [] := by decide

/-- C2 counterexample: on input `"aaaa"` the pipeline yields the code
table `[('a', [])]` — the single symbol gets the EMPTY code, not the
single-bit code "0" (`[false]`) — and an encoded output of 0 bits, not
4 bits. -/
theorem single_symbol_code_cex :
    huffman_code (String.toList "aaaa") = some ([('a', [])], []) ∧
    lookupA [(('a' : Char), ([] : List Bool))] 'a' ≠ some [false] ∧
    ([] : List Bool).length ≠ 1 ∧
    ([] : List Bool).length ≠ 4 := by decide

/-- C2 (amended): for every input whose frequency map contains exactly
one distinct symbol, the code table assigns that symbol the empty
(zero-bit) code, and the encoded output is empty; in particular
`"aaaa"` yields a one-entry table with the empty code and 0 encoded
bits. -/
theorem single_symbol_empty_code :
    ∀ (s : List Char) (c : Char) (n : Nat), build_freq_map s = [(c, n)] →
      huffman_code s = some ([(c, [])], []) := by
  intro s c n h
  have h1 : build_huffman_tree (build_freq_map s) = some (.leaf c n) := by
    rw [h]; exact build_huffman_tree_single c n
  have h4 : compress s [(c, [])] = some [] :=
    compress_single_char s c (all_chars_eq_of_freq_single h)
  rw [huffman_code, h1]
  simp only [build_code_table_leaf, h4]

/-- C2 witness: the amended statement applied to the concrete input
`"aaaa"`. -/
theorem single_symbol_empty_code_witness :
    huffman_code (String.toList "aaaa") = some ([('a', [])], []) :=
  single_symbol_empty_code (String.toList "aaaa") 'a' 4 (by decide)

/-- C3: building a Huffman tree fails exactly on the empty frequency
map: `build_huffman_tree m` is `none` — the (modelled) failure of the
final `pop().unwrap()`, the sole failure path of the function, which
aborts the computation — if and only if `m` is empty, so on every
non-empty map it succeeds and on the empty map it fails rather than
succeeding. -/
theorem build_huffman_tree_fails_iff_empty :
    ∀ m : List (Char × Nat), build_huffman_tree m = none ↔ m = [] := by
  intro m
  constructor
  · intro h
    by_contra hne
    have hsome : (buildLoop (heapOf m)).isSome = true := by
      apply buildLoop_isSome (heapOf m).length _ le_rfl
      intro hc
      have hlen := congrArg List.length hc
      rw [length_heapOf] at hlen
      exact hne (List.length_eq_zero.mp hlen)
    rw [build_huffman_tree] at h
    rw [h] at hsome
    exact absurd hsome (by simp)
  · rintro rfl; rfl

/-- C4: on the frequency map of the test input (a:5, b:9, c:12, d:13,
e:16, f:45), the tree builder produces exactly the tree asserted by
the source's `huffman_tree` test — in particular the root's `freq` is
100 — and the code-table builder yields exactly the table
f→"0", c→"100", d→"101", a→"1100", b→"1101", e→"111". -/
theorem test_tree_and_table :
    build_huffman_tree (build_freq_map build_input) = some expectedTestTree ∧
    expectedTestTree.val = 100 ∧
    build_code_table expectedTestTree = expectedTestTable := by decide

/-- C8: `compress` fails (the modelled lookup-`unwrap` panic) exactly
when some input symbol is missing from the table; when it succeeds,
the output is the concatenation, in input order, of each input
symbol's code, and its length is the sum of those codes' lengths. -/
theorem compress_spec :
    ∀ (s : List Char) (tbl : List (Char × List Bool)),
      (compress s tbl = none ↔ ∃ c ∈ s, lookupA tbl c = none) ∧
      (∀ bits, compress s tbl = some bits →
        bits = (s.map (fun c => (lookupA tbl c).getD [])).flatten ∧
        bits.length = (s.map (fun c => ((lookupA tbl c).getD []).length)).sum) := by
  intro s tbl
  refine ⟨compress_none_iff s tbl, ?_⟩
  intro bits h
  have hb := compress_some s tbl bits h
  refine ⟨hb, ?_⟩
  rw [hb, List.length_flatten, List.map_map]
  rfl

/-- C8 witness: on input "ab" with a table containing only 'a', the
encoder fails; on the same input with a table containing both symbols
it produces the concatenation of the two codes. -/
theorem compress_spec_witness :
    compress [Char.ofNat 97, Char.ofNat 98] [(Char.ofNat 97, [false])] = none :=
  (compress_spec ['a', 'b'] [('a', [false])]).1.mpr ⟨'b', by decide, by decide⟩

/-- C9: for every input text, the frequency map has exactly one entry
per distinct symbol of the input (keys are exactly the input's
symbols, without duplicates), each value is that symbol's occurrence
count, and the values sum to the length of the input. -/
theorem freq_map_spec (s : List Char) :
    (∀ c, (lookupA (build_freq_map s) c).isSome = true ↔ c ∈ s) ∧
    (∀ c n, lookupA (build_freq_map s) c = some n → n = s.count c) ∧
    ((build_freq_map s).map Prod.fst).Nodup ∧
    ((build_freq_map s).map Prod.snd).sum = s.length := by
  refine ⟨fun c => mem_build_freq_map_iff.symm, ?_,
    nodup_keys_build_freq_map s, sum_build_freq_map s⟩
  intro c n h
  rw [lookup_build_freq_map] at h
  split at h
  · injection h with h'; exact h'.symm
  · exact absurd h (by simp)

/-- C9 witness: the specification applied to the concrete input "aab":
'a' is in the map. -/
theorem freq_map_spec_witness :
    (lookupA (build_freq_map (String.toList "aab")) 'a').isSome = true :=
  ((freq_map_spec (String.toList "aab")).1 'a').mpr (by decide)

/-- C10 (implicit behavior): when the frequency map of the input
contains exactly one distinct symbol, `build_huffman_tree` returns a
single leaf, `build_code_table` maps that symbol to the empty code,
and `compress` of the original input returns a bit vector of length
0. -/
theorem single_symbol_leaf_empty_code :
    ∀ (c : Char) (n : Nat) (s : List Char), build_freq_map s = [(c, n)] →
      build_huffman_tree (build_freq_map s) = some (.leaf c n) ∧
      build_code_table (.leaf c n) = [(c, [])] ∧
      compress s (build_code_table (.leaf c n)) = some [] := by
  intro c n s h
  refine ⟨by rw [h]; exact build_huffman_tree_single c n,
    build_code_table_leaf c n, ?_⟩
  rw [build_code_table_leaf]
  exact compress_single_char s c (all_chars_eq_of_freq_single h)

/-- C10 witness: the statement applied to the concrete input "aaaa". -/
theorem single_symbol_leaf_empty_code_witness :
    build_huffman_tree (build_freq_map (String.toList "aaaa")) = some (.leaf 'a' 4) ∧
    build_code_table (.leaf 'a' 4) = [('a', [])] ∧
    compress (String.toList "aaaa") (build_code_table (.leaf 'a' 4)) = some [] :=
  single_symbol_leaf_empty_code 'a' 4 (String.toList "aaaa") (by decide)

/-- `tinsert` preserves key distinctness. -/
theorem nodup_keys_tinsert {α : Type} (c : Char) (v : α) (tbl : List (Char × α))
    (h : (tbl.map Prod.fst).Nodup) : ((tinsert c v tbl).map Prod.fst).Nodup := by
  rw [tinsert, List.map_cons, List.nodup_cons]
  constructor
  · intro hc
    obtain ⟨p, hp, hpc⟩ := List.mem_map.mp hc
    have := List.of_mem_filter hp
    simp at this
    exact this hpc
  · have hsub : (tbl.filter (fun p => p.1 ≠ c)).map Prod.fst |>.Sublist (tbl.map Prod.fst) :=
      (List.filter_sublist tbl).map Prod.fst
    exact h.sublist hsub

theorem nodup_keys_insertAll :
    ∀ (t : HTree) (code : List Bool) (tbl : List (Char × List Bool)),
      (tbl.map Prod.fst).Nodup → ((insertAll t code tbl).map Prod.fst).Nodup := by
  intro t
  induction t with
  | leaf c f => intro code tbl h; exact nodup_keys_tinsert c code tbl h
  | node f l r ihl ihr =>
      intro code tbl h
      exact ihl _ _ (ihr _ _ h)

theorem nodup_keys_build_code_table (t : HTree) :
    ((build_code_table t).map Prod.fst).Nodup := by
  rw [build_code_table_eq_insertAll]
  exact nodup_keys_insertAll t [] [] (by simp)

/-- C5: for every non-empty input (equivalently, whenever the tree
builder succeeds on the input's frequency map), the code table is
prefix-free — no looked-up code is a proper prefix of another — and
has exactly one entry per distinct input symbol: its keys are
duplicate-free and a symbol has an entry iff it occurs in the
input. -/
theorem code_table_prefix_free :
    ∀ (s : List Char) (t : HTree),
      build_huffman_tree (build_freq_map s) = some t →
      (∀ c1 c2 p1 p2,
        lookupA (build_code_table t) c1 = some p1 →
        lookupA (build_code_table t) c2 = some p2 →
        properPre p1 p2 = false) ∧
      ((build_code_table t).map Prod.fst).Nodup ∧
      (∀ c, (lookupA (build_code_table t) c).isSome = true ↔ c ∈ s) := by
  intro s t ht
  refine ⟨?_, nodup_keys_build_code_table t, ?_⟩
  · intro c1 c2 p1 p2 h1 h2
    rw [lookup_build_code_table] at h1 h2
    exact pathOf_not_properPre t c1 c2 p1 p2 h1 h2
  · intro c
    rw [lookup_build_code_table, pathOf_isSome_iff]
    rw [build_huffman_tree] at ht
    rw [chars_buildLoop (heapOf (build_freq_map s)).length _ t le_rfl ht c]
    constructor
    · rintro ⟨u, hu, hc⟩
      obtain ⟨p, hp, rfl⟩ := mem_heapOf.mp hu
      have hcp : c = p.1 := by simpa [HTree.chars] using hc
      rw [hcp]
      have hsm : (lookupA (build_freq_map s) p.1).isSome = true :=
        (lookupA_isSome_iff_mem_keys _ p.1).mpr (List.mem_map.mpr ⟨p, hp, rfl⟩)
      exact mem_build_freq_map_iff.mpr hsm
    · intro hc
      have : (lookupA (build_freq_map s) c).isSome = true :=
        mem_build_freq_map_iff.mp hc
      have hk : c ∈ (build_freq_map s).map Prod.fst :=
        (lookupA_isSome_iff_mem_keys _ c).mp this
      obtain ⟨p, hp, hpc⟩ := List.mem_map.mp hk
      exact ⟨.leaf p.1 p.2, mem_heapOf.mpr ⟨p, hp, rfl⟩, by simp [HTree.chars, hpc]⟩

/-- C5 witness: on the concrete input "ab" (tree with codes
'a' → "0", 'b' → "1"), the two codes are not proper prefixes of one
another. -/
theorem code_table_prefix_free_witness :
    properPre [false] [true] = false :=
  ((code_table_prefix_free (String.toList "ab")
      (.node 2 (.leaf 'a' 1) (.leaf 'b' 1)) (by decide)).1)
    'a' 'b' [false] [true] (by decide) (by decide)

/-- C6: for every non-empty frequency map whose values are positive
(as is the case for any map produced by `build_freq_map`: values are
occurrence counts of present symbols), `build_huffman_tree` succeeds
and in the resulting tree every internal node's `freq` is the sum of
its two children's `freq` values, recursively, and every node's `freq`
is at least 1. -/
theorem tree_wf :
    ∀ m : List (Char × Nat), m ≠ [] → (∀ p ∈ m, 1 ≤ p.2) →
      ∃ t, build_huffman_tree m = some t ∧ wf t = true := by
  intro m hne hpos
  have hheap : heapOf m ≠ [] := by
    intro hc
    have hlen := congrArg List.length hc
    rw [length_heapOf] at hlen
    exact hne (List.length_eq_zero.mp hlen)
  have hsome : (buildLoop (heapOf m)).isSome = true :=
    buildLoop_isSome (heapOf m).length _ le_rfl hheap
  obtain ⟨t, ht⟩ := Option.isSome_iff_exists.mp hsome
  refine ⟨t, ht, ?_⟩
  refine wf_buildLoop (heapOf m).length _ t le_rfl ?_ ht
  intro u hu
  obtain ⟨p, hp, rfl⟩ := mem_heapOf.mp hu
  simpa [wf] using hpos p hp

/-- C6 witness: the statement applied to the concrete frequency map
a:1, b:2. -/
theorem tree_wf_witness :
    ∃ t, build_huffman_tree [('a', 1), ('b', 2)] = some t ∧ wf t = true :=
  tree_wf [('a', 1), ('b', 2)] (by decide) (by decide)

/-! ### The future-merge count: basic equations and the monotonicity
induction -/

theorem fm_nil (T : HTree) : fm T [] = 0 := rfl

theorem fm_single (T t : HTree) : fm T [t] = 0 := rfl

theorem val_mergeNodes (a b : HTree) : (mergeNodes a b).val = a.val + b.val := rfl

/-- Facts available at one step of the heap loop. -/
theorem step_pack {a b : HTree} {rest : List HTree}
    (hs : SortedF (a :: b :: rest)) (hp : PosF (a :: b :: rest)) :
    a.val ≤ b.val ∧ (∀ t ∈ rest, b.val ≤ t.val) ∧
    SortedF (insertNode (mergeNodes a b) rest) ∧
    PosF (insertNode (mergeNodes a b) rest) ∧
    1 ≤ a.val ∧ 1 ≤ b.val := by
  obtain ⟨ha', hs2⟩ := List.pairwise_cons.mp hs
  obtain ⟨hb', hs3⟩ := List.pairwise_cons.mp hs2
  have hab : a.val ≤ b.val := ha' b (by simp)
  have hpa : 1 ≤ a.val := hp a (by simp)
  have hpb : 1 ≤ b.val := hp b (by simp)
  refine ⟨hab, hb', sorted_insertNode hs3, ?_, hpa, hpb⟩
  intro t ht
  rcases mem_insertNode.mp ht with rfl | ht'
  · rw [val_mergeNodes]; omega
  · exact hp t (by simp [ht'])

/-- The four statements `Mst`, `Est`, `Fst`, `Tst` hold for every
forest size, by one strong induction on the size: each one-step case
reduces to one of the four statements on the strictly shorter forest
obtained by merging the two minima. -/
theorem fmQuad : ∀ n : Nat, Mst n ∧ Est n ∧ Fst n ∧ Tst n := by
  intro n
  induction n with
  | zero =>
      refine ⟨?_, ?_, ?_, ?_⟩
      · intro G hlen hs hp A U hA hU hlt
        obtain rfl : G = [] := List.length_eq_zero.mp (Nat.le_zero.mp hlen)
        simp at hA
      · intro G hlen hs hp m1 m2 w U hm12 hall hw hwval hU hUm2 hUm1 hUle
        obtain rfl : G = [] := List.length_eq_zero.mp (Nat.le_zero.mp hlen)
        simp at hU
      · intro G hlen hs hp v U W hall hU hW hUv hWv
        obtain rfl : G = [] := List.length_eq_zero.mp (Nat.le_zero.mp hlen)
        simp at hU
      · intro G hlen hs hp P Q hP hQ hPQ
        obtain rfl : G = [] := List.length_eq_zero.mp (Nat.le_zero.mp hlen)
        simp at hP
  | succ n ih =>
      obtain ⟨ihM, ihE, ihF, ihT⟩ := ih
      refine ⟨?_, ?_, ?_, ?_⟩
      -- M: lighter merges at least as often
      · intro G hlen hs hp A U hA hU hlt
        cases G with
        | nil => simp at hA
        | cons a G1 =>
          cases G1 with
          | nil => simp [fm_single]
          | cons b rest =>
              obtain ⟨hab, hbrest, hsort', hpos', hpa, hpb⟩ := step_pack hs hp
              have hlen' : (insertNode (mergeNodes a b) rest).length ≤ n := by
                rw [length_insertNode]
                simp only [List.length_cons] at hlen
                omega
              by_cases hUp : U = a ∨ U = b
              · by_cases hAp : A = a ∨ A = b
                · rw [fm_cons_cons, fm_cons_cons, if_pos hUp, if_pos hAp]
                · have hArest : A ∈ rest := by
                    rcases List.mem_cons.mp hA with rfl | hA1
                    · exact absurd (Or.inl rfl) hAp
                    rcases List.mem_cons.mp hA1 with rfl | hA2
                    · exact absurd (Or.inr rfl) hAp
                    · exact hA2
                  have h1 : b.val ≤ A.val := hbrest A hArest
                  have h2 : U.val ≤ b.val := by
                    rcases hUp with rfl | rfl
                    · exact hab
                    · exact le_refl _
                  omega
              · have hUrest : U ∈ rest := by
                  rcases List.mem_cons.mp hU with rfl | hU1
                  · exact absurd (Or.inl rfl) hUp
                  rcases List.mem_cons.mp hU1 with rfl | hU2
                  · exact absurd (Or.inr rfl) hUp
                  · exact hU2
                have hUmem' : U ∈ insertNode (mergeNodes a b) rest :=
                  mem_insertNode.mpr (Or.inr hUrest)
                have hwmem : mergeNodes a b ∈ insertNode (mergeNodes a b) rest :=
                  mem_insertNode.mpr (Or.inl rfl)
                have hUb : b.val ≤ U.val := hbrest U hUrest
                by_cases hAp : A = a ∨ A = b
                · rw [fm_cons_cons, fm_cons_cons, if_pos hAp, if_neg hUp]
                  by_cases hcmp : (mergeNodes a b).val < U.val
                  · have := ihM _ hlen' hsort' hpos' (mergeNodes a b) U hwmem hUmem' hcmp
                    omega
                  · have hm1U : a.val < U.val := by
                      rcases hAp with rfl | rfl <;> omega
                    have hUle : U.val ≤ a.val + b.val := by
                      rw [val_mergeNodes] at hcmp
                      omega
                    have hallG' : ∀ t ∈ insertNode (mergeNodes a b) rest, b.val ≤ t.val := by
                      intro t ht
                      rcases mem_insertNode.mp ht with rfl | ht'
                      · rw [val_mergeNodes]; omega
                      · exact hbrest t ht'
                    have := ihE _ hlen' hsort' hpos' a.val b.val (mergeNodes a b) U hab
                      hallG' hwmem (val_mergeNodes a b) hUmem' hUb hm1U hUle
                    omega
                · have hArest : A ∈ rest := by
                    rcases List.mem_cons.mp hA with rfl | hA1
                    · exact absurd (Or.inl rfl) hAp
                    rcases List.mem_cons.mp hA1 with rfl | hA2
                    · exact absurd (Or.inr rfl) hAp
                    · exact hA2
                  rw [fm_cons_cons, fm_cons_cons, if_neg hAp, if_neg hUp]
                  exact ihM _ hlen' hsort' hpos' A U
                    (mem_insertNode.mpr (Or.inr hArest)) hUmem' hlt
      -- E: the just-merged node vs a member between the two minima
      · intro G hlen hs hp m1 m2 w U hm12 hall hw hwval hU hUm2 hUm1 hUle
        cases G with
        | nil => simp at hU
        | cons a G1 =>
          cases G1 with
          | nil => simp [fm_single]
          | cons b rest =>
              obtain ⟨hab, hbrest, hsort', hpos', hpa, hpb⟩ := step_pack hs hp
              have hlen' : (insertNode (mergeNodes a b) rest).length ≤ n := by
                rw [length_insertNode]
                simp only [List.length_cons] at hlen
                omega
              have hva : m2 ≤ a.val := hall a (by simp)
              have hvb : m2 ≤ b.val := hall b (by simp)
              have hwmem : mergeNodes a b ∈ insertNode (mergeNodes a b) rest :=
                mem_insertNode.mpr (Or.inl rfl)
              by_cases hUp : U = a ∨ U = b
              · by_cases hwp : w = a ∨ w = b
                · rw [fm_cons_cons, fm_cons_cons, if_pos hUp, if_pos hwp]
                  omega
                · have hwrest : w ∈ rest := by
                    rcases List.mem_cons.mp hw with rfl | hw1
                    · exact absurd (Or.inl rfl) hwp
                    rcases List.mem_cons.mp hw1 with rfl | hw2
                    · exact absurd (Or.inr rfl) hwp
                    · exact hw2
                  rw [fm_cons_cons, fm_cons_cons, if_pos hUp, if_neg hwp]
                  have hgt : w.val < (mergeNodes a b).val := by
                    rw [val_mergeNodes, hwval]
                    rcases hUp with rfl | rfl <;> omega
                  have := ihM _ hlen' hsort' hpos' w (mergeNodes a b)
                    (mem_insertNode.mpr (Or.inr hwrest)) hwmem hgt
                  omega
              · have hUrest : U ∈ rest := by
                  rcases List.mem_cons.mp hU with rfl | hU1
                  · exact absurd (Or.inl rfl) hUp
                  rcases List.mem_cons.mp hU1 with rfl | hU2
                  · exact absurd (Or.inr rfl) hUp
                  · exact hU2
                have hUmem' : U ∈ insertNode (mergeNodes a b) rest :=
                  mem_insertNode.mpr (Or.inr hUrest)
                have hUb : b.val ≤ U.val := hbrest U hUrest
                have hallG' : ∀ t ∈ insertNode (mergeNodes a b) rest, b.val ≤ t.val := by
                  intro t ht
                  rcases mem_insertNode.mp ht with rfl | ht'
                  · rw [val_mergeNodes]; omega
                  · exact hbrest t ht'
                by_cases hwp : w = a ∨ w = b
                · rw [fm_cons_cons, fm_cons_cons, if_neg hUp, if_pos hwp]
                  have hwb : w.val ≤ b.val := by
                    rcases hwp with rfl | rfl
                    · exact hab
                    · exact le_refl _
                  by_cases hcase : a.val < b.val
                  · have := ihE _ hlen' hsort' hpos' a.val b.val (mergeNodes a b) U hab
                      hallG' hwmem (val_mergeNodes a b) hUmem'
                      (by omega) (by omega) (by omega)
                    omega
                  · have := ihF _ hlen' hsort' hpos' b.val U (mergeNodes a b) hallG'
                      hUmem' hwmem (by omega) (by rw [val_mergeNodes]; omega)
                    omega
                · have hwrest : w ∈ rest := by
                    rcases List.mem_cons.mp hw with rfl | hw1
                    · exact absurd (Or.inl rfl) hwp
                    rcases List.mem_cons.mp hw1 with rfl | hw2
                    · exact absurd (Or.inr rfl) hwp
                    · exact hw2
                  rw [fm_cons_cons, fm_cons_cons, if_neg hUp, if_neg hwp]
                  have hallG2 : ∀ t ∈ insertNode (mergeNodes a b) rest, m2 ≤ t.val := by
                    intro t ht
                    rcases mem_insertNode.mp ht with rfl | ht'
                    · rw [val_mergeNodes]; omega
                    · exact hall t (by simp [ht'])
                  exact ihE _ hlen' hsort' hpos' m1 m2 w U hm12 hallG2
                    (mem_insertNode.mpr (Or.inr hwrest)) hwval hUmem' hUm2 hUm1 hUle
      -- F: weight v vs weight 2v over a v-bounded forest
      · intro G hlen hs hp v U W hall hU hW hUv hWv
        cases G with
        | nil => simp at hU
        | cons a G1 =>
          cases G1 with
          | nil => simp [fm_single]
          | cons b rest =>
              obtain ⟨hab, hbrest, hsort', hpos', hpa, hpb⟩ := step_pack hs hp
              have hlen' : (insertNode (mergeNodes a b) rest).length ≤ n := by
                rw [length_insertNode]
                simp only [List.length_cons] at hlen
                omega
              have hv1 : 1 ≤ v := by
                have := hp U hU
                omega
              have hva : v ≤ a.val := hall a (by simp)
              have hvb : v ≤ b.val := hall b (by simp)
              have hwmem : mergeNodes a b ∈ insertNode (mergeNodes a b) rest :=
                mem_insertNode.mpr (Or.inl rfl)
              by_cases hUp : U = a ∨ U = b
              · by_cases hWp : W = a ∨ W = b
                · rw [fm_cons_cons, fm_cons_cons, if_pos hUp, if_pos hWp]
                  omega
                · have hWrest : W ∈ rest := by
                    rcases List.mem_cons.mp hW with rfl | hW1
                    · exact absurd (Or.inl rfl) hWp
                    rcases List.mem_cons.mp hW1 with rfl | hW2
                    · exact absurd (Or.inr rfl) hWp
                    · exact hW2
                  rw [fm_cons_cons, fm_cons_cons, if_pos hUp, if_neg hWp]
                  have hWb : b.val ≤ W.val := hbrest W hWrest
                  by_cases hcmp : 2 * v < (mergeNodes a b).val
                  · have := ihM _ hlen' hsort' hpos' W (mergeNodes a b)
                      (mem_insertNode.mpr (Or.inr hWrest)) hwmem (by omega)
                    omega
                  · have hw2v : (mergeNodes a b).val = 2 * v := by
                      rw [val_mergeNodes]
                      rw [val_mergeNodes] at hcmp
                      rcases hUp with rfl | rfl <;> omega
                    have := ihT _ hlen' hsort' hpos' (mergeNodes a b) W
                      hwmem (mem_insertNode.mpr (Or.inr hWrest)) (by rw [hw2v, hWv])
                    omega
              · have hUrest : U ∈ rest := by
                  rcases List.mem_cons.mp hU with rfl | hU1
                  · exact absurd (Or.inl rfl) hUp
                  rcases List.mem_cons.mp hU1 with rfl | hU2
                  · exact absurd (Or.inr rfl) hUp
                  · exact hU2
                have hUb : b.val ≤ U.val := hbrest U hUrest
                by_cases hWp : W = a ∨ W = b
                · have hWb : W.val ≤ b.val := by
                    rcases hWp with rfl | rfl
                    · exact hab
                    · exact le_refl _
                  omega
                · have hWrest : W ∈ rest := by
                    rcases List.mem_cons.mp hW with rfl | hW1
                    · exact absurd (Or.inl rfl) hWp
                    rcases List.mem_cons.mp hW1 with rfl | hW2
                    · exact absurd (Or.inr rfl) hWp
                    · exact hW2
                  rw [fm_cons_cons, fm_cons_cons, if_neg hUp, if_neg hWp]
                  have hallG' : ∀ t ∈ insertNode (mergeNodes a b) rest, v ≤ t.val := by
                    intro t ht
                    rcases mem_insertNode.mp ht with rfl | ht'
                    · rw [val_mergeNodes]; omega
                    · exact hall t (by simp [ht'])
                  exact ihF _ hlen' hsort' hpos' v U W hallG'
                    (mem_insertNode.mpr (Or.inr hUrest))
                    (mem_insertNode.mpr (Or.inr hWrest)) hUv hWv
      -- T: equal weights merge within one of each other
      · intro G hlen hs hp P Q hP hQ hPQ
        cases G with
        | nil => simp at hP
        | cons a G1 =>
          cases G1 with
          | nil => simp [fm_single]
          | cons b rest =>
              obtain ⟨hab, hbrest, hsort', hpos', hpa, hpb⟩ := step_pack hs hp
              have hlen' : (insertNode (mergeNodes a b) rest).length ≤ n := by
                rw [length_insertNode]
                simp only [List.length_cons] at hlen
                omega
              have hwmem : mergeNodes a b ∈ insertNode (mergeNodes a b) rest :=
                mem_insertNode.mpr (Or.inl rfl)
              by_cases hPp : P = a ∨ P = b
              · by_cases hQp : Q = a ∨ Q = b
                · rw [fm_cons_cons, fm_cons_cons, if_pos hPp, if_pos hQp]
                  omega
                · have hQrest : Q ∈ rest := by
                    rcases List.mem_cons.mp hQ with rfl | hQ1
                    · exact absurd (Or.inl rfl) hQp
                    rcases List.mem_cons.mp hQ1 with rfl | hQ2
                    · exact absurd (Or.inr rfl) hQp
                    · exact hQ2
                  rw [fm_cons_cons, fm_cons_cons, if_pos hPp, if_neg hQp]
                  have hQb : b.val ≤ Q.val := hbrest Q hQrest
                  have hPb : P.val ≤ b.val := by
                    rcases hPp with rfl | rfl
                    · exact hab
                    · exact le_refl _
                  have hgt : Q.val < (mergeNodes a b).val := by
                    rw [val_mergeNodes]
                    omega
                  have := ihM _ hlen' hsort' hpos' Q (mergeNodes a b)
                    (mem_insertNode.mpr (Or.inr hQrest)) hwmem hgt
                  omega
              · have hPrest : P ∈ rest := by
                  rcases List.mem_cons.mp hP with rfl | hP1
                  · exact absurd (Or.inl rfl) hPp
                  rcases List.mem_cons.mp hP1 with rfl | hP2
                  · exact absurd (Or.inr rfl) hPp
                  · exact hP2
                have hPmem' : P ∈ insertNode (mergeNodes a b) rest :=
                  mem_insertNode.mpr (Or.inr hPrest)
                have hPb : b.val ≤ P.val := hbrest P hPrest
                by_cases hQp : Q = a ∨ Q = b
                · rw [fm_cons_cons, fm_cons_cons, if_neg hPp, if_pos hQp]
                  have hQb : Q.val ≤ b.val := by
                    rcases hQp with rfl | rfl
                    · exact hab
                    · exact le_refl _
                  have hallG' : ∀ t ∈ insertNode (mergeNodes a b) rest, b.val ≤ t.val := by
                    intro t ht
                    rcases mem_insertNode.mp ht with rfl | ht'
                    · rw [val_mergeNodes]; omega
                    · exact hbrest t ht'
                  by_cases hcase : a.val < b.val
                  · have := ihE _ hlen' hsort' hpos' a.val b.val (mergeNodes a b) P hab
                      hallG' hwmem (val_mergeNodes a b) hPmem'
                      (by omega) (by omega) (by omega)
                    omega
                  · have := ihF _ hlen' hsort' hpos' b.val P (mergeNodes a b) hallG'
                      hPmem' hwmem (by omega) (by rw [val_mergeNodes]; omega)
                    omega
                · have hQrest : Q ∈ rest := by
                    rcases List.mem_cons.mp hQ with rfl | hQ1
                    · exact absurd (Or.inl rfl) hQp
                    rcases List.mem_cons.mp hQ1 with rfl | hQ2
                    · exact absurd (Or.inr rfl) hQp
                    · exact hQ2
                  rw [fm_cons_cons, fm_cons_cons, if_neg hPp, if_neg hQp]
                  exact ihT _ hlen' hsort' hpos' P Q hPmem'
                    (mem_insertNode.mpr (Or.inr hQrest)) hPQ

/-! ### Relating the future-merge count to depths in the final tree -/

theorem pathOf_eq_none_iff (t : HTree) (c : Char) :
    pathOf c t = none ↔ c ∉ t.chars := by
  rw [← pathOf_isSome_iff]
  cases pathOf c t <;> simp

theorem disj_step {a b : HTree} {rest : List HTree} (hd : DisjF (a :: b :: rest)) :
    DisjF (insertNode (mergeNodes a b) rest) := by
  obtain ⟨ha', hd2⟩ := List.pairwise_cons.mp hd
  obtain ⟨hb', hd3⟩ := List.pairwise_cons.mp hd2
  have hsymm : Symmetric (fun s t : HTree => ∀ c ∈ s.chars, c ∉ t.chars) :=
    fun x y hxy c hc hcx => hxy c hcx hc
  have hcons : DisjF (mergeNodes a b :: rest) := by
    rw [DisjF, List.pairwise_cons]
    refine ⟨?_, hd3⟩
    intro t ht c hc
    rcases List.mem_append.mp (by simpa [mergeNodes, HTree.chars] using hc) with h | h
    · exact ha' t (by simp [ht]) c h
    · exact hb' t ht c h
  exact (List.Perm.pairwise_iff (fun h => hsymm h) (perm_insertNode _ _)).mpr hcons

theorem disj_heapOf {m : List (Char × Nat)} (h : (m.map Prod.fst).Nodup) :
    DisjF (heapOf m) := by
  have hsymm : Symmetric (fun s t : HTree => ∀ c ∈ s.chars, c ∉ t.chars) :=
    fun x y hxy c hc hcx => hxy c hcx hc
  rw [DisjF]
  refine (List.Perm.pairwise_iff (fun h => hsymm h) (perm_heapOf m)).mpr ?_
  rw [List.pairwise_map]
  have h' : List.Pairwise (fun p q : Char × Nat => p.1 ≠ q.1) m := List.pairwise_map.mp h
  refine h'.imp ?_
  intro p q hne c hc
  simp [HTree.chars] at hc ⊢
  subst hc
  exact hne

theorem posF_heapOf (s : List Char) : PosF (heapOf (build_freq_map s)) := by
  intro u hu
  obtain ⟨p, hp, rfl⟩ := mem_heapOf.mp hu
  simpa [HTree.val] using pos_val_build_freq_map hp

/-- In the final tree, the depth of the character `c` lying in forest
member `T` is its depth inside `T` plus the number of future merges of
`T`. -/
theorem depth_buildLoop :
    ∀ (n : Nat) (G : List HTree) (R T : HTree) (c : Char) (p : List Bool),
      G.length ≤ n → DisjF G → T ∈ G → pathOf c T = some p →
      buildLoop G = some R →
      ∃ q, pathOf c R = some q ∧ q.length = p.length + fm T G := by
  intro n
  induction n with
  | zero =>
      intro G R T c p hlen hd hT hpath hR
      obtain rfl : G = [] := List.length_eq_zero.mp (Nat.le_zero.mp hlen)
      simp at hT
  | succ n ih =>
      intro G R T c p hlen hd hT hpath hR
      cases G with
      | nil => simp at hT
      | cons a G1 =>
        cases G1 with
        | nil =>
            have hTa : T = a := by simpa using hT
            rw [buildLoop_single] at hR
            have haR : a = R := by injection hR
            refine ⟨p, ?_, by simp [fm_single]⟩
            rw [← haR, ← hTa]
            exact hpath
        | cons b rest =>
            rw [buildLoop_cons_cons] at hR
            have hlen' : (insertNode (mergeNodes a b) rest).length ≤ n := by
              rw [length_insertNode]
              simp only [List.length_cons] at hlen
              omega
            have hd' : DisjF (insertNode (mergeNodes a b) rest) := disj_step hd
            obtain ⟨ha', hd2⟩ := List.pairwise_cons.mp hd
            by_cases hTa : T = a
            · rw [hTa] at hpath
              have hpw : pathOf c (mergeNodes a b) = some (false :: p) := by
                simp [mergeNodes, pathOf, hpath]
              obtain ⟨q, hq, hqlen⟩ := ih _ R (mergeNodes a b) c (false :: p) hlen' hd'
                (mem_insertNode.mpr (Or.inl rfl)) hpw hR
              refine ⟨q, hq, ?_⟩
              rw [fm_cons_cons, if_pos (Or.inl hTa)]
              simp only [List.length_cons] at hqlen
              omega
            · by_cases hTb : T = b
              · rw [hTb] at hpath
                have hcb : c ∈ b.chars :=
                  (pathOf_isSome_iff b c).mp (by rw [hpath]; rfl)
                have hcna : c ∉ a.chars := fun hca => ha' b (by simp) c hca hcb
                have hpa : pathOf c a = none := (pathOf_eq_none_iff a c).mpr hcna
                have hpw : pathOf c (mergeNodes a b) = some (true :: p) := by
                  simp [mergeNodes, pathOf, hpa, hpath]
                obtain ⟨q, hq, hqlen⟩ := ih _ R (mergeNodes a b) c (true :: p) hlen' hd'
                  (mem_insertNode.mpr (Or.inl rfl)) hpw hR
                refine ⟨q, hq, ?_⟩
                rw [fm_cons_cons, if_pos (Or.inr hTb)]
                simp only [List.length_cons] at hqlen
                omega
              · have hTrest : T ∈ rest := by
                  rcases List.mem_cons.mp hT with rfl | hT1
                  · exact absurd rfl hTa
                  rcases List.mem_cons.mp hT1 with rfl | hT2
                  · exact absurd rfl hTb
                  · exact hT2
                obtain ⟨q, hq, hqlen⟩ := ih _ R T c p hlen' hd'
                  (mem_insertNode.mpr (Or.inr hTrest)) hpath hR
                refine ⟨q, hq, ?_⟩
                rw [fm_cons_cons, if_neg (fun h => h.elim hTa hTb)]
                exact hqlen

/-- The length of the code assigned to symbol `c` (of frequency `f`)
equals the number of merges of `c`'s leaf during the heap run. -/
theorem code_len_eq_fm {s : List Char} {t : HTree} {c : Char} {f : Nat} {p : List Bool}
    (ht : build_huffman_tree (build_freq_map s) = some t)
    (hf : lookupA (build_freq_map s) c = some f)
    (hp : lookupA (build_code_table t) c = some p) :
    p.length = fm (.leaf c f) (heapOf (build_freq_map s)) := by
  have hmem : (c, f) ∈ build_freq_map s := mem_of_lookupA_eq hf
  have hleaf : (HTree.leaf c f) ∈ heapOf (build_freq_map s) :=
    mem_heapOf.mpr ⟨(c, f), hmem, rfl⟩
  have hpath : pathOf c (HTree.leaf c f) = some [] := by simp [pathOf]
  rw [build_huffman_tree] at ht
  obtain ⟨q, hq, hqlen⟩ := depth_buildLoop (heapOf (build_freq_map s)).length _ t
    (.leaf c f) c [] le_rfl (disj_heapOf (nodup_keys_build_freq_map s)) hleaf hpath ht
  rw [lookup_build_code_table] at hp
  rw [hp] at hq
  obtain rfl : p = q := by injection hq
  simpa using hqlen

/-- Weak monotonicity of code lengths: a strictly more frequent symbol
gets a code no longer than a strictly less frequent one. -/
theorem code_len_mono {s : List Char} {t : HTree}
    (ht : build_huffman_tree (build_freq_map s) = some t) :
    ∀ (c1 c2 : Char) (f1 f2 : Nat) (p1 p2 : List Bool),
      lookupA (build_freq_map s) c1 = some f1 →
      lookupA (build_freq_map s) c2 = some f2 →
      f2 < f1 →
      lookupA (build_code_table t) c1 = some p1 →
      lookupA (build_code_table t) c2 = some p2 →
      p1.length ≤ p2.length := by
  intro c1 c2 f1 f2 p1 p2 hf1 hf2 hlt hp1 hp2
  rw [code_len_eq_fm ht hf1 hp1, code_len_eq_fm ht hf2 hp2]
  have h1 : (HTree.leaf c1 f1) ∈ heapOf (build_freq_map s) :=
    mem_heapOf.mpr ⟨(c1, f1), mem_of_lookupA_eq hf1, rfl⟩
  have h2 : (HTree.leaf c2 f2) ∈ heapOf (build_freq_map s) :=
    mem_heapOf.mpr ⟨(c2, f2), mem_of_lookupA_eq hf2, rfl⟩
  exact (fmQuad (heapOf (build_freq_map s)).length).1 _ le_rfl
    (sorted_heapOf _) (posF_heapOf s) (.leaf c2 f2) (.leaf c1 f1) h2 h1 hlt

/-- A symbol has a code in the table iff it occurs in the input. -/
theorem table_isSome_iff {s : List Char} {t : HTree}
    (ht : build_huffman_tree (build_freq_map s) = some t) (c : Char) :
    (lookupA (build_code_table t) c).isSome = true ↔ c ∈ s := by
  rw [lookup_build_code_table, pathOf_isSome_iff]
  rw [build_huffman_tree] at ht
  rw [chars_buildLoop (heapOf (build_freq_map s)).length _ t le_rfl ht c]
  constructor
  · rintro ⟨u, hu, hc⟩
    obtain ⟨p, hp, rfl⟩ := mem_heapOf.mp hu
    have hcp : c = p.1 := by simpa [HTree.chars] using hc
    rw [hcp]
    have hsm : (lookupA (build_freq_map s) p.1).isSome = true :=
      (lookupA_isSome_iff_mem_keys _ p.1).mpr (List.mem_map.mpr ⟨p, hp, rfl⟩)
    exact mem_build_freq_map_iff.mpr hsm
  · intro hc
    have hsm : (lookupA (build_freq_map s) c).isSome = true :=
      mem_build_freq_map_iff.mp hc
    have hk : c ∈ (build_freq_map s).map Prod.fst :=
      (lookupA_isSome_iff_mem_keys _ c).mp hsm
    obtain ⟨p, hp, hpc⟩ := List.mem_map.mp hk
    exact ⟨.leaf p.1 p.2, mem_heapOf.mpr ⟨p, hp, rfl⟩, by simp [HTree.chars, hpc]⟩

/-! ### Selection helpers -/

theorem exists_min_on {α : Type} (g : α → Nat) :
    ∀ l : List α, l ≠ [] → ∃ x ∈ l, ∀ y ∈ l, g x ≤ g y := by
  intro l
  induction l with
  | nil => intro h; exact absurd rfl h
  | cons a rest ih =>
      intro _
      cases rest with
      | nil =>
          refine ⟨a, by simp, ?_⟩
          intro y hy
          rcases List.mem_singleton.mp hy with rfl
          exact le_refl _
      | cons b rest2 =>
          obtain ⟨x, hx, hmin⟩ := ih (by simp)
          by_cases hle : g a ≤ g x
          · refine ⟨a, by simp, ?_⟩
            intro y hy
            rcases List.mem_cons.mp hy with rfl | hy'
            · exact le_refl _
            · exact le_trans hle (hmin y hy')
          · refine ⟨x, by simp [hx], ?_⟩
            intro y hy
            rcases List.mem_cons.mp hy with rfl | hy'
            · exact Nat.le_of_not_le hle
            · exact hmin y hy'

theorem exists_max_on {α : Type} (g : α → Nat) :
    ∀ l : List α, l ≠ [] → ∃ x ∈ l, ∀ y ∈ l, g y ≤ g x := by
  intro l
  induction l with
  | nil => intro h; exact absurd rfl h
  | cons a rest ih =>
      intro _
      cases rest with
      | nil =>
          refine ⟨a, by simp, ?_⟩
          intro y hy
          rcases List.mem_singleton.mp hy with rfl
          exact le_refl _
      | cons b rest2 =>
          obtain ⟨x, hx, hmax⟩ := ih (by simp)
          by_cases hle : g x ≤ g a
          · refine ⟨a, by simp, ?_⟩
            intro y hy
            rcases List.mem_cons.mp hy with rfl | hy'
            · exact le_refl _
            · exact le_trans (hmax y hy') hle
          · refine ⟨x, by simp [hx], ?_⟩
            intro y hy
            rcases List.mem_cons.mp hy with rfl | hy'
            · exact Nat.le_of_not_le hle
            · exact hmax y hy'

theorem sum_ge_card_mul_min {α : Type} (g : α → Nat) (k : Nat) :
    ∀ l : List α, (∀ x ∈ l, k ≤ g x) → k * l.length ≤ (l.map g).sum := by
  intro l
  induction l with
  | nil => intro _; simp
  | cons a rest ih =>
      intro h
      have h1 : k ≤ g a := h a (by simp)
      have h2 := ih (fun x hx => h x (by simp [hx]))
      rw [List.map_cons, List.sum_cons, List.length_cons]
      have : k * (rest.length + 1) = k * rest.length + k := by ring
      omega

/-- C7 counterexample: on input "abc" all three symbols have the
maximal frequency 1, but 'a' receives the code "10" of length 2, while
the table has 3 entries whose code lengths sum to 5 — so this
maximum-frequency symbol's code length (2) exceeds the average code
length (5/3), refuting the claim that a (i.e. any) maximum-frequency
symbol's code length is at most the average. -/
theorem max_freq_above_average_cex :
    (huffman_code (String.toList "abc")).map
        (fun r => (lookupA r.1 'a', r.1.length, (r.1.map (fun e => e.2.length)).sum)) =
      some (some [true, false], 3, 5) ∧
    lookupA (build_freq_map (String.toList "abc")) 'a' = some 1 ∧
    (build_freq_map (String.toList "abc")).all (fun p => p.2 ≤ 1) = true ∧
    ¬ (([true, false] : List Bool).length * 3 ≤ 5) := by decide

/-- C7 (amended): in every code table produced by the pipeline, a
symbol with strictly higher frequency receives a code no longer than a
symbol with strictly lower frequency; and SOME maximum-frequency
symbol (one of shortest code among the maximum-frequency symbols) has
code length at most the average code length of the table (ties can
place other maximum-frequency symbols above the average). -/
theorem huffman_monotone :
    ∀ (s : List Char) (t : HTree),
      build_huffman_tree (build_freq_map s) = some t →
      (∀ (c1 c2 : Char) (f1 f2 : Nat) (p1 p2 : List Bool),
        lookupA (build_freq_map s) c1 = some f1 →
        lookupA (build_freq_map s) c2 = some f2 →
        f2 < f1 →
        lookupA (build_code_table t) c1 = some p1 →
        lookupA (build_code_table t) c2 = some p2 →
        p1.length ≤ p2.length) ∧
      (∃ (c : Char) (p : List Bool) (f : Nat),
        lookupA (build_code_table t) c = some p ∧
        lookupA (build_freq_map s) c = some f ∧
        (∀ (c' : Char) (f' : Nat), lookupA (build_freq_map s) c' = some f' → f' ≤ f) ∧
        p.length * (build_code_table t).length ≤
          ((build_code_table t).map (fun e => e.2.length)).sum) := by
  intro s t ht
  refine ⟨code_len_mono ht, ?_⟩
  have hmne : build_freq_map s ≠ [] := by
    intro hc
    rw [build_huffman_tree, hc] at ht
    simp [heapOf, buildLoop_nil] at ht
  obtain ⟨pM, hpM, hmax⟩ := exists_max_on (fun p : Char × Nat => p.2) (build_freq_map s) hmne
  have hcne : (build_freq_map s).filter (fun p => p.2 = pM.2) ≠ [] := by
    intro hc
    have hmem : pM ∈ (build_freq_map s).filter (fun p => p.2 = pM.2) :=
      List.mem_filter.mpr ⟨hpM, by simp⟩
    rw [hc] at hmem
    simp at hmem
  obtain ⟨pC, hpC, hmin⟩ := exists_min_on
    (fun p : Char × Nat => ((lookupA (build_code_table t) p.1).getD []).length)
    ((build_freq_map s).filter (fun p => p.2 = pM.2)) hcne
  have hpCm : pC ∈ build_freq_map s := (List.mem_filter.mp hpC).1
  have hpCf : pC.2 = pM.2 := by
    have := (List.mem_filter.mp hpC).2
    simpa using this
  have hlookupF : lookupA (build_freq_map s) pC.1 = some pC.2 :=
    lookupA_eq_of_mem_nodup (nodup_keys_build_freq_map s) (by simpa using hpCm)
  have hcs : pC.1 ∈ s := mem_build_freq_map_iff.mpr (by rw [hlookupF]; rfl)
  have hpath : (lookupA (build_code_table t) pC.1).isSome = true :=
    (table_isSome_iff ht pC.1).mpr hcs
  obtain ⟨pcode, hpcode⟩ := Option.isSome_iff_exists.mp hpath
  refine ⟨pC.1, pcode, pC.2, hpcode, hlookupF, ?_, ?_⟩
  · intro c' f' hf'
    have hm : (c', f') ∈ build_freq_map s := mem_of_lookupA_eq hf'
    have := hmax (c', f') hm
    rw [hpCf]
    exact this
  · have hbound : ∀ e ∈ build_code_table t, pcode.length ≤ e.2.length := by
      intro e he
      have hle : lookupA (build_code_table t) e.1 = some e.2 :=
        lookupA_eq_of_mem_nodup (nodup_keys_build_code_table t) (by simpa using he)
      have hes : e.1 ∈ s := (table_isSome_iff ht e.1).mp (by rw [hle]; rfl)
      have hfe : lookupA (build_freq_map s) e.1 = some (s.count e.1) := by
        rw [lookup_build_freq_map]
        simp [hes]
      have hfle : s.count e.1 ≤ pC.2 := by
        have hm : (e.1, s.count e.1) ∈ build_freq_map s := mem_of_lookupA_eq hfe
        rw [hpCf]
        exact hmax _ hm
      rcases Nat.lt_or_ge (s.count e.1) pC.2 with hlt | hge
      · exact code_len_mono ht pC.1 e.1 pC.2 (s.count e.1) pcode e.2
          hlookupF hfe hlt hpcode hle
      · have heq : s.count e.1 = pC.2 := Nat.le_antisymm hfle hge
        have hecand : (e.1, s.count e.1) ∈
            (build_freq_map s).filter (fun p => p.2 = pM.2) :=
          List.mem_filter.mpr ⟨mem_of_lookupA_eq hfe, by simp [heq, hpCf]⟩
        have hm := hmin (e.1, s.count e.1) hecand
        simpa [hpcode, hle] using hm
    have := sum_ge_card_mul_min (fun e : Char × List Bool => e.2.length)
      pcode.length (build_code_table t) hbound
    exact this

/-- C7 witness: the amended statement applied to the concrete input
"aab" — 'a' (frequency 2) receives a code no longer than 'b'
(frequency 1). -/
theorem huffman_monotone_witness :
    ([true] : List Bool).length ≤ ([false] : List Bool).length :=
  (huffman_monotone (String.toList "aab")
      (.node 3 (.leaf 'b' 1) (.leaf 'a' 2)) (by decide)).1
    'a' 'b' 2 1 [true] [false] (by decide) (by decide) (by decide)
    (by decide) (by decide)
